import Mathlib

/-!
Verification of `readme_extractor.py` (metadata-checker).

Shallow embedding: Python strings are `List Char`; record fields that may be
absent or `None` are `Option`s; `record.get(k) or []` becomes `getOr`; the
`Counter` objects of the aggregators are modelled by the list of their
increments, so counter equality is permutation of those lists.

The embedding is ASCII-faithful: Python's `str.lower` and the regex classes
`\s`, `\w`, `\d` are modelled on the code points the repository's data
exercises (ASCII letters/digits plus the common whitespace code points).
-/

namespace MetadataChecker

/-- Code points of Python's whitespace class `\s` / `str.isspace`
(ASCII plus the common Unicode space separators). -/
def isPySpaceNat (n : Nat) : Bool :=
  (9 ≤ n && n ≤ 13) || n = 32 || (28 ≤ n && n ≤ 31) || n = 133 || n = 160 ||
  n = 0x1680 || (0x2000 ≤ n && n ≤ 0x200a) || n = 0x2028 || n = 0x2029 ||
  n = 0x202f || n = 0x205f || n = 0x3000

/-- Model of Python's regex class `\s` on a character. -/
def isPySpace (c : Char) : Bool := isPySpaceNat c.toNat

/-- Code points of the regex class `\w` (ASCII letters, digits, underscore). -/
def isWordCharNat (n : Nat) : Bool :=
  (48 ≤ n && n ≤ 57) || (65 ≤ n && n ≤ 90) || (97 ≤ n && n ≤ 122) || n = 95

/-- Model of the regex class `\w` on a character. -/
def isWordChar (c : Char) : Bool := isWordCharNat c.toNat

/-- Model of the regex class `\d` (ASCII digits) on a character. -/
def isDigitChar (c : Char) : Bool := 48 ≤ c.toNat && c.toNat ≤ 57

/-- Code-point action of Python's `str.lower` (ASCII range). -/
def lowerNat (n : Nat) : Nat := if 65 ≤ n ∧ n ≤ 90 then n + 32 else n

/-- Model of Python's `str.lower` on one character. -/
def pyToLower (c : Char) : Char :=
  if 65 ≤ c.toNat && c.toNat ≤ 90 then Char.ofNat (c.toNat + 32) else c

/-- Model of Python's `str.lower` on a string. -/
def pyLower (s : List Char) : List Char := s.map pyToLower

theorem char_eq_of_toNat_eq {c d : Char} (h : c.toNat = d.toNat) : c = d :=
  Char.ext (UInt32.toNat.inj h)

theorem toNat_ofNat_lower (n : Nat) (h1 : 97 ≤ n) (h2 : n ≤ 122) :
    (Char.ofNat n).toNat = n := by
  interval_cases n <;> decide

theorem toNat_pyToLower (c : Char) : (pyToLower c).toNat = lowerNat c.toNat := by
  unfold pyToLower lowerNat
  by_cases h : 65 ≤ c.toNat ∧ c.toNat ≤ 90
  · rw [if_pos (by simp [h.1, h.2]), if_pos h]
    exact toNat_ofNat_lower _ (by omega) (by omega)
  · rw [if_neg (by simp only [Bool.and_eq_true, decide_eq_true_eq]; exact h), if_neg h]

theorem lowerNat_idem (n : Nat) : lowerNat (lowerNat n) = lowerNat n := by
  unfold lowerNat
  split
  · split <;> omega
  · rfl

theorem pyToLower_idem (c : Char) : pyToLower (pyToLower c) = pyToLower c := by
  apply char_eq_of_toNat_eq
  rw [toNat_pyToLower, toNat_pyToLower, lowerNat_idem]

theorem pyLower_idem (s : List Char) : pyLower (pyLower s) = pyLower s := by
  simp [pyLower, List.map_map, Function.comp_def, pyToLower_idem]

/-- Lowering fixes characters outside the upper-case ASCII range. -/
theorem pyToLower_of_not_upper {c : Char} (h : ¬(65 ≤ c.toNat ∧ c.toNat ≤ 90)) :
    pyToLower c = c := by
  unfold pyToLower
  rw [if_neg (by simp only [Bool.and_eq_true, decide_eq_true_eq]; exact h)]

theorem isPySpace_pyToLower (c : Char) : isPySpace (pyToLower c) = isPySpace c := by
  rw [isPySpace, isPySpace, toNat_pyToLower, Bool.eq_iff_iff]
  unfold lowerNat isPySpaceNat
  split <;>
    simp only [Bool.or_eq_true, Bool.and_eq_true, decide_eq_true_eq] <;> omega

theorem isWordChar_pyToLower (c : Char) : isWordChar (pyToLower c) = isWordChar c := by
  rw [isWordChar, isWordChar, toNat_pyToLower, Bool.eq_iff_iff]
  unfold lowerNat isWordCharNat
  split <;>
    simp only [Bool.or_eq_true, Bool.and_eq_true, decide_eq_true_eq] <;> omega

theorem isDigitChar_pyToLower (c : Char) : isDigitChar (pyToLower c) = isDigitChar c := by
  rw [isDigitChar, isDigitChar, toNat_pyToLower, Bool.eq_iff_iff]
  unfold lowerNat
  split <;> simp only [Bool.and_eq_true, decide_eq_true_eq] <;> omega

/-- Lowering fixes ASCII digits. -/
theorem pyToLower_digit {c : Char} (h : isDigitChar c = true) : pyToLower c = c := by
  apply pyToLower_of_not_upper
  simp only [isDigitChar, Bool.and_eq_true, decide_eq_true_eq] at h
  omega

/-- A character with a code point below 97 can only be the image of itself
under lowering. -/
theorem pyToLower_eq_low {c d : Char} (hd : d.toNat < 97) (h : pyToLower c = d) :
    c = d := by
  by_cases hu : 65 ≤ c.toNat ∧ c.toNat ≤ 90
  · exfalso
    have h1 : (pyToLower c).toNat = c.toNat + 32 := by
      rw [toNat_pyToLower]; unfold lowerNat; rw [if_pos hu]
    rw [h] at h1
    omega
  · rw [pyToLower_of_not_upper hu] at h; exact h

/-! ### Whitespace handling for `normalize_source_name`

`re.sub(r"\s+", " ", s)` replaces each maximal whitespace run with one
space; `str.strip()` removes leading and trailing whitespace. -/

/-- `s.replace("\r", "\n")`. -/
def crMap (s : List Char) : List Char :=
  s.map (fun c => if c = '\r' then '\n' else c)

/-- Worker for whitespace collapsing; the flag records whether the previous
character of the input was whitespace (already emitted as one space). -/
def collapseAux : Bool → List Char → List Char
  | _, [] => []
  | b, c :: cs =>
    if isPySpace c then
      if b then collapseAux true cs else ' ' :: collapseAux true cs
    else c :: collapseAux false cs

/-- Model of `re.sub(r"\s+", " ", s)`. -/
def collapseWS (s : List Char) : List Char := collapseAux false s

/-- Remove trailing whitespace (the right half of `str.strip()`). -/
def dropTrailingSpaces : List Char → List Char
  | [] => []
  | c :: cs =>
    match dropTrailingSpaces cs with
    | [] => if isPySpace c then [] else [c]
    | r => c :: r

/-- Model of `str.strip()`. -/
def stripSpaces (s : List Char) : List Char :=
  dropTrailingSpaces (s.dropWhile isPySpace)

/-- No two adjacent space characters. -/
def noTwoSpaces : List Char → Bool
  | a :: b :: rest => !(a == ' ' && b == ' ') && noTwoSpaces (b :: rest)
  | _ => true

theorem noTwoSpaces_cons_cons (a b : Char) (l : List Char) :
    noTwoSpaces (a :: b :: l) = (!(a == ' ' && b == ' ') && noTwoSpaces (b :: l)) := rfl

theorem noTwoSpaces_tail {c : Char} {l : List Char}
    (h : noTwoSpaces (c :: l) = true) : noTwoSpaces l = true := by
  cases l with
  | nil => rfl
  | cons b rest =>
    rw [noTwoSpaces_cons_cons, Bool.and_eq_true] at h
    exact h.2

theorem noTwoSpaces_cons_of_head {c : Char} {l : List Char}
    (hl : noTwoSpaces l = true) (hc : c = ' ' → l.head? ≠ some ' ') :
    noTwoSpaces (c :: l) = true := by
  cases l with
  | nil => rfl
  | cons b rest =>
    rw [noTwoSpaces_cons_cons, Bool.and_eq_true]
    refine ⟨?_, hl⟩
    simp only [Bool.not_eq_eq_eq_not, Bool.not_true, Bool.and_eq_false_imp, beq_eq_false_iff_ne]
    intro ha
    have := hc (by simpa using ha)
    simp only [List.head?_cons, ne_eq, Option.some.injEq] at this
    exact fun hb => this hb

/-- Every whitespace character that `collapseAux` emits is `' '`. -/
theorem collapseAux_spaces (s : List Char) :
    ∀ b, ∀ c ∈ collapseAux b s, isPySpace c = true → c = ' ' := by
  induction s with
  | nil => intro b c hc; simp [collapseAux] at hc
  | cons a rest ih =>
    intro b c hc hsp
    unfold collapseAux at hc
    by_cases ha : isPySpace a = true
    · rw [if_pos ha] at hc
      by_cases hb : b = true
      · subst hb; rw [if_pos rfl] at hc; exact ih true c hc hsp
      · have hb' : b = false := by revert hb; cases b <;> simp
        subst hb'
        rw [if_neg (by simp)] at hc
        rcases List.mem_cons.mp hc with h | h
        · exact h
        · exact ih true c h hsp
    · rw [if_neg ha] at hc
      rcases List.mem_cons.mp hc with h | h
      · subst h; exact absurd hsp ha
      · exact ih false c h hsp

/-- The output of `collapseAux true` never begins with a space. -/
theorem collapseAux_true_head (s : List Char) :
    (collapseAux true s).head? ≠ some ' ' := by
  induction s with
  | nil => simp [collapseAux]
  | cons a rest ih =>
    unfold collapseAux
    by_cases ha : isPySpace a = true
    · rw [if_pos ha, if_pos rfl]; exact ih
    · rw [if_neg ha]
      simp only [List.head?_cons, ne_eq, Option.some.injEq]
      intro h
      subst h
      exact ha (by decide)

/-- The output of `collapseAux` never has two adjacent spaces. -/
theorem collapseAux_noTwoSpaces (s : List Char) :
    ∀ b, noTwoSpaces (collapseAux b s) = true := by
  induction s with
  | nil => intro b; rfl
  | cons a rest ih =>
    intro b
    unfold collapseAux
    by_cases ha : isPySpace a = true
    · rw [if_pos ha]
      by_cases hb : b = true
      · subst hb; rw [if_pos rfl]; exact ih true
      · have hb' : b = false := by revert hb; cases b <;> simp
        subst hb'
        rw [if_neg (by simp)]
        exact noTwoSpaces_cons_of_head (ih true) (fun _ => collapseAux_true_head rest)
    · rw [if_neg ha]
      refine noTwoSpaces_cons_of_head (ih false) (fun hsp => ?_)
      exact absurd (hsp ▸ (by decide : isPySpace ' ' = true)) ha

/-- On a string whose whitespace is single `' '` characters, `collapseAux`
is the identity. -/
theorem collapseAux_fixed (s : List Char)
    (hsp : ∀ c ∈ s, isPySpace c = true → c = ' ')
    (h2 : noTwoSpaces s = true) :
    collapseAux false s = s ∧ (s.head? ≠ some ' ' → collapseAux true s = s) := by
  induction s with
  | nil => exact ⟨rfl, fun _ => rfl⟩
  | cons a rest ih =>
    have hsp' : ∀ c ∈ rest, isPySpace c = true → c = ' ' :=
      fun c hc => hsp c (List.mem_cons_of_mem a hc)
    obtain ⟨ihf, iht⟩ := ih hsp' (noTwoSpaces_tail h2)
    by_cases ha : isPySpace a = true
    · have haeq : a = ' ' := hsp a (List.mem_cons_self a rest) ha
      subst haeq
      have hresthead : rest.head? ≠ some ' ' := by
        cases rest with
        | nil => simp
        | cons b tl =>
          rw [noTwoSpaces_cons_cons, Bool.and_eq_true] at h2
          have := h2.1
          simp only [List.head?_cons, ne_eq, Option.some.injEq]
          intro hb
          subst hb
          simp at this
      constructor
      · unfold collapseAux
        rw [if_pos ha, if_neg (by simp)]
        rw [iht hresthead]
      · intro hhead
        simp at hhead
    · have haeq : (a == ' ') = false := by
        simp only [beq_eq_false_iff_ne, ne_eq]
        intro h; subst h; exact ha (by decide)
      constructor
      · unfold collapseAux
        rw [if_neg ha, ihf]
      · intro _
        unfold collapseAux
        rw [if_neg ha, ihf]

theorem dropTrailingSpaces_prefix (s : List Char) :
    dropTrailingSpaces s <+: s := by
  induction s with
  | nil => exact List.prefix_rfl
  | cons a rest ih =>
    unfold dropTrailingSpaces
    cases h : dropTrailingSpaces rest with
    | nil =>
      by_cases ha : isPySpace a = true
      · rw [if_pos ha]; exact List.nil_prefix
      · rw [if_neg ha]; exact ⟨rest, rfl⟩
    | cons b tl =>
      rw [h] at ih
      exact List.prefix_cons_inj a |>.mpr ih

theorem dropTrailingSpaces_getLast (s : List Char) :
    ∀ c, (dropTrailingSpaces s).getLast? = some c → isPySpace c = false := by
  induction s with
  | nil => intro c hc; simp [dropTrailingSpaces] at hc
  | cons a rest ih =>
    intro c hc
    unfold dropTrailingSpaces at hc
    cases h : dropTrailingSpaces rest with
    | nil =>
      rw [h] at hc
      by_cases ha : isPySpace a = true
      · rw [if_pos ha] at hc; simp at hc
      · rw [if_neg ha] at hc
        simp only [List.getLast?_singleton, Option.some.injEq] at hc
        subst hc
        exact Bool.not_eq_true _ |>.mp ha
    | cons b tl =>
      rw [h] at hc
      rw [List.getLast?_cons_cons] at hc
      exact ih c (h ▸ hc)

/-- If the last character is not whitespace, dropping trailing whitespace
changes nothing. -/
theorem dropTrailingSpaces_fixed (s : List Char)
    (h : ∀ c, s.getLast? = some c → isPySpace c = false) :
    dropTrailingSpaces s = s := by
  induction s with
  | nil => rfl
  | cons a rest ih =>
    unfold dropTrailingSpaces
    cases rest with
    | nil =>
      have := h a (by simp)
      simp [dropTrailingSpaces, this]
    | cons b tl =>
      have hrest : dropTrailingSpaces (b :: tl) = b :: tl := by
        apply ih
        intro c hc
        exact h c (by rwa [List.getLast?_cons_cons])
      rw [hrest]

/-- `dropWhile` leaves a list alone when its head fails the predicate. -/
theorem dropWhile_fixed {p : Char → Bool} {s : List Char}
    (h : ∀ c, s.head? = some c → p c = false) :
    s.dropWhile p = s := by
  cases s with
  | nil => rfl
  | cons a rest =>
    rw [List.dropWhile_cons, if_neg]
    rw [h a rfl]
    simp

theorem head_dropWhile_not (p : Char → Bool) (s : List Char) :
    ∀ c, (s.dropWhile p).head? = some c → p c = false := by
  induction s with
  | nil => intro c hc; simp at hc
  | cons a rest ih =>
    intro c hc
    rw [List.dropWhile_cons] at hc
    split at hc
    · exact ih c hc
    · next h =>
      simp only [List.head?_cons, Option.some.injEq] at hc
      subst hc
      exact Bool.not_eq_true _ |>.mp h

/-- `noTwoSpaces` restricted to a prefix. -/
theorem noTwoSpaces_prefix {s t : List Char} (hp : t <+: s)
    (h : noTwoSpaces s = true) : noTwoSpaces t = true := by
  induction s generalizing t with
  | nil =>
    rw [List.prefix_nil] at hp
    subst hp; rfl
  | cons a rest ih =>
    cases t with
    | nil => rfl
    | cons b tl =>
      obtain ⟨hab, htl⟩ : b = a ∧ tl <+: rest := by
        obtain ⟨u, hu⟩ := hp
        injection hu with h1 h2
        exact ⟨h1, u, h2⟩
      subst hab
      apply noTwoSpaces_cons_of_head (ih htl (noTwoSpaces_tail h))
      intro hb htlhead
      cases rest with
      | nil => rw [List.prefix_nil] at htl; subst htl; simp at htlhead
      | cons x xs =>
        rw [noTwoSpaces_cons_cons, Bool.and_eq_true] at h
        have h1 := h.1
        subst hb
        have : tl.head? = some ' ' := htlhead
        cases tl with
        | nil => simp at this
        | cons y ys =>
          simp only [List.head?_cons, Option.some.injEq] at this
          subst this
          obtain ⟨u, hu⟩ := htl
          injection hu with h2 _
          subst h2
          simp at h1

/-- `noTwoSpaces` restricted to a suffix. -/
theorem noTwoSpaces_suffix {s t : List Char} (hp : t <:+ s)
    (h : noTwoSpaces s = true) : noTwoSpaces t = true := by
  obtain ⟨u, hu⟩ := hp
  subst hu
  induction u with
  | nil => exact h
  | cons a rest ih => exact ih (noTwoSpaces_tail h)

/-- The cleaning pipeline of `normalize_source_name` before lowercasing:
replace `\r` by `\n`, collapse whitespace runs, strip. -/
def cleanCore (raw : List Char) : List Char :=
  stripSpaces (collapseWS (crMap raw))

/-- The full cleaning pipeline of `normalize_source_name`:
replace `\r`, collapse whitespace, strip, lowercase. -/
def cleanName (raw : List Char) : List Char := pyLower (cleanCore raw)

/-- Well-spacedness: all whitespace is `' '`, no two adjacent spaces, and
no leading or trailing whitespace. -/
def WellSpaced (s : List Char) : Prop :=
  (∀ c ∈ s, isPySpace c = true → c = ' ') ∧ noTwoSpaces s = true ∧
  (∀ c, s.head? = some c → isPySpace c = false) ∧
  (∀ c, s.getLast? = some c → isPySpace c = false)

theorem prefix_head {t s : List Char} (hp : t <+: s) :
    ∀ c, t.head? = some c → s.head? = some c := by
  intro c hc
  cases t with
  | nil => simp at hc
  | cons a tl =>
    simp only [List.head?_cons, Option.some.injEq] at hc
    subst hc
    obtain ⟨u, hu⟩ := hp
    rw [← hu]
    rfl

theorem wellSpaced_cleanCore (raw : List Char) : WellSpaced (cleanCore raw) := by
  unfold cleanCore stripSpaces
  set m0 := collapseWS (crMap raw) with hm0
  set m := m0.dropWhile isPySpace with hm
  have hsuffix : m <:+ m0 := List.dropWhile_suffix _
  have hpre : dropTrailingSpaces m <+: m := dropTrailingSpaces_prefix m
  refine ⟨?_, ?_, ?_, ?_⟩
  · intro c hc hsp
    have hc' : c ∈ m0 := hsuffix.sublist.subset (hpre.sublist.subset hc)
    exact collapseAux_spaces (crMap raw) false c hc' hsp
  · exact noTwoSpaces_prefix hpre
      (noTwoSpaces_suffix hsuffix (collapseAux_noTwoSpaces (crMap raw) false))
  · intro c hc
    exact head_dropWhile_not isPySpace m0 c (prefix_head hpre c hc)
  · exact dropTrailingSpaces_getLast m

theorem cleanCore_fixed {s : List Char} (h : WellSpaced s) : cleanCore s = s := by
  obtain ⟨hsp, h2, hhd, hlast⟩ := h
  have hcr : crMap s = s := by
    unfold crMap
    have : List.map (fun c => if c = '\r' then '\n' else c) s = List.map id s := by
      apply List.map_congr_left
      intro c hc
      simp only [id]
      rw [if_neg]
      intro hceq
      subst hceq
      have := hsp '\r' hc (by decide)
      simp at this
    rw [this, List.map_id]
  have hcol : collapseWS s = s := by
    unfold collapseWS
    rw [hcr] at *
    exact (collapseAux_fixed s hsp h2).1
  have hdw : s.dropWhile isPySpace = s := dropWhile_fixed hhd
  have hdt : dropTrailingSpaces s = s := dropTrailingSpaces_fixed s hlast
  unfold cleanCore stripSpaces
  rw [hcr, hcol, hdw, hdt]

theorem pyToLower_space_iff (c : Char) : pyToLower c = ' ' ↔ c = ' ' := by
  constructor
  · intro h
    exact pyToLower_eq_low (by decide) h
  · intro h
    subst h
    exact pyToLower_of_not_upper (by decide)

theorem noTwoSpaces_pyLower (s : List Char) (h : noTwoSpaces s = true) :
    noTwoSpaces (pyLower s) = true := by
  induction s with
  | nil => rfl
  | cons a rest ih =>
    have ih' := ih (noTwoSpaces_tail h)
    apply noTwoSpaces_cons_of_head ih'
    intro ha hhd
    have ha' : a = ' ' := (pyToLower_space_iff a).mp ha
    subst ha'
    cases rest with
    | nil => simp [pyLower] at hhd
    | cons b tl =>
      have hb : pyToLower b = ' ' := by
        simp only [pyLower, List.map_cons, List.head?_cons, Option.some.injEq] at hhd
        exact hhd
      have hb' : b = ' ' := (pyToLower_space_iff b).mp hb
      subst hb'
      rw [noTwoSpaces_cons_cons] at h
      simp at h

theorem wellSpaced_pyLower {s : List Char} (h : WellSpaced s) :
    WellSpaced (pyLower s) := by
  obtain ⟨hsp, h2, hhd, hlast⟩ := h
  refine ⟨?_, noTwoSpaces_pyLower s h2, ?_, ?_⟩
  · intro c hc hspc
    obtain ⟨a, ha, haeq⟩ := List.mem_map.mp hc
    subst haeq
    rw [isPySpace_pyToLower] at hspc
    rw [hsp a ha hspc]
    exact pyToLower_of_not_upper (by decide)
  · intro c hc
    rw [pyLower, List.head?_map] at hc
    cases hhead : s.head? with
    | none => rw [hhead] at hc; exact Option.noConfusion hc
    | some a =>
      rw [hhead] at hc
      have hc2 : pyToLower a = c := by injection hc
      subst hc2
      rw [isPySpace_pyToLower]
      exact hhd a hhead
  · intro c hc
    rw [pyLower, List.getLast?_map] at hc
    cases hlst : s.getLast? with
    | none => rw [hlst] at hc; exact Option.noConfusion hc
    | some a =>
      rw [hlst] at hc
      have hc2 : pyToLower a = c := by injection hc
      subst hc2
      rw [isPySpace_pyToLower]
      exact hlast a hlst

/-- The output of the cleaning pipeline is stable under re-cleaning. -/
theorem cleanName_stable (raw : List Char) :
    cleanName (cleanName raw) = cleanName raw := by
  unfold cleanName
  have h1 : WellSpaced (pyLower (cleanCore raw)) :=
    wellSpaced_pyLower (wellSpaced_cleanCore raw)
  rw [cleanCore_fixed h1, pyLower_idem]

/-! ### Source name tables and `normalize_source_name` -/

/-- `PSEUDO_SOURCE_NAMES`: names that are clearly not data sources. -/
def PSEUDO_SOURCE_NAMES : List (List Char) :=
  ["creative commons".toList,
   "documents of the world bank".toList,
   "document of the world bank".toList,
   "documents of world bank".toList,
   "document of world bank".toList,
   "documents of the world bank group".toList]

/-- `SOURCE_NAME_MAP`: variants mapped to canonical names. -/
def SOURCE_NAME_MAP : List (List Char × List Char) :=
  [("world bank".toList, "world bank".toList),
   ("the world bank".toList, "world bank".toList),
   ("world bank group".toList, "world bank".toList),
   ("world  bank".toList, "world bank".toList),
   ("wdi".toList, "world development indicators".toList),
   ("world development indicators".toList, "world development indicators".toList),
   ("world development  indicators".toList, "world development indicators".toList),
   ("world development indicators (wdi)".toList, "world development indicators".toList),
   ("pip".toList, "poverty and inequality platform".toList),
   ("poverty and inequality platform".toList, "poverty and inequality platform".toList),
   ("imf".toList, "international monetary fund".toList),
   ("i.m.f.".toList, "international monetary fund".toList),
   ("international monetary fund".toList, "international monetary fund".toList)]

/-- Model of Python's substring test `needle in hay`. -/
def containsSub (needle : List Char) : List Char → Bool
  | [] => needle.isEmpty
  | c :: cs => needle.isPrefixOf (c :: cs) || containsSub needle cs

theorem containsSub_iff (needle hay : List Char) :
    containsSub needle hay = true ↔ needle <:+: hay := by
  induction hay with
  | nil =>
    simp only [containsSub, List.isEmpty_iff, List.infix_nil]
  | cons c cs ih =>
    simp only [containsSub, Bool.or_eq_true, ih, List.infix_cons_iff,
      List.isPrefixOf_iff_prefix]

/-- `normalize_source_name(raw)`: replace line breaks, collapse whitespace,
strip, lowercase, drop pseudo-sources, map known variants to canonical
names; `None` (absent input or discarded name) is `none`. -/
def normalize_source_name : Option (List Char) → Option (List Char)
  | none => none
  | some raw =>
    if cleanCore raw = [] then none
    else if cleanName raw ∈ PSEUDO_SOURCE_NAMES then none
    else if containsSub "creative commons".toList (cleanName raw) then none
    else if containsSub "documents of the world bank".toList (cleanName raw) then none
    else
      match SOURCE_NAME_MAP.lookup (cleanName raw) with
      | some v => some v
      | none => some (cleanName raw)

theorem lookup_mem_values {α β : Type} [BEq α] [LawfulBEq α] {k : α} {v : β} :
    ∀ {l : List (α × β)}, l.lookup k = some v → v ∈ l.map Prod.snd := by
  intro l
  induction l with
  | nil => intro h; simp [List.lookup] at h
  | cons p rest ih =>
    intro h
    rw [List.lookup] at h
    by_cases hk : (k == p.1) = true
    · rw [hk] at h
      injection h with h
      subst h
      exact List.mem_map.mpr ⟨p, List.mem_cons_self p rest, rfl⟩
    · have hk' : (k == p.1) = false := by revert hk; cases (k == p.1) <;> simp
      rw [hk'] at h
      exact List.mem_cons_of_mem _ (ih h)

/-- Every canonical value of `SOURCE_NAME_MAP` is a fixed point of
`normalize_source_name`. -/
theorem values_fixed :
    ∀ v ∈ SOURCE_NAME_MAP.map Prod.snd,
      normalize_source_name (some v) = some v := by
  decide

/-- Structure of a successful `normalize_source_name` run. -/
theorem normalize_eq_some {raw s : List Char}
    (h : normalize_source_name (some raw) = some s) :
    cleanCore raw ≠ [] ∧ cleanName raw ∉ PSEUDO_SOURCE_NAMES ∧
    containsSub "creative commons".toList (cleanName raw) = false ∧
    containsSub "documents of the world bank".toList (cleanName raw) = false ∧
    ((SOURCE_NAME_MAP.lookup (cleanName raw) = some s) ∨
     (SOURCE_NAME_MAP.lookup (cleanName raw) = none ∧ s = cleanName raw)) := by
  simp only [normalize_source_name] at h
  by_cases h1 : cleanCore raw = []
  · rw [if_pos h1] at h; exact absurd h (by simp)
  rw [if_neg h1] at h
  by_cases h2 : cleanName raw ∈ PSEUDO_SOURCE_NAMES
  · rw [if_pos h2] at h; exact absurd h (by simp)
  rw [if_neg h2] at h
  by_cases h3 : containsSub "creative commons".toList (cleanName raw) = true
  · rw [if_pos h3] at h; exact absurd h (by simp)
  rw [if_neg h3] at h
  by_cases h4 : containsSub "documents of the world bank".toList (cleanName raw) = true
  · rw [if_pos h4] at h; exact absurd h (by simp)
  rw [if_neg h4] at h
  refine ⟨h1, h2, by simpa using h3, by simpa using h4, ?_⟩
  cases hl : SOURCE_NAME_MAP.lookup (cleanName raw) with
  | some v =>
    rw [hl] at h
    injection h with h
    subst h
    exact Or.inl rfl
  | none =>
    rw [hl] at h
    injection h with h
    exact Or.inr ⟨rfl, h.symm⟩

theorem cleanName_nil_iff (raw : List Char) :
    cleanName raw = [] ↔ cleanCore raw = [] := by
  unfold cleanName pyLower
  exact List.map_eq_nil_iff

/-- Re-normalizing an output of `normalize_source_name` returns it
unchanged. -/
theorem normalize_fix {x : Option (List Char)} {s : List Char}
    (h : normalize_source_name x = some s) :
    normalize_source_name (some s) = some s := by
  cases x with
  | none => exact absurd h (by simp [normalize_source_name])
  | some raw =>
    obtain ⟨h1, h2, h3, h4, h5⟩ := normalize_eq_some h
    rcases h5 with hv | ⟨hnone, hs⟩
    · exact values_fixed s (lookup_mem_values hv)
    · subst hs
      have hws : WellSpaced (cleanName raw) :=
        wellSpaced_pyLower (wellSpaced_cleanCore raw)
      have hcc : cleanCore (cleanName raw) = cleanName raw := cleanCore_fixed hws
      have hcn : cleanName (cleanName raw) = cleanName raw := cleanName_stable raw
      have hne : cleanName raw ≠ [] := by
        rw [ne_eq, cleanName_nil_iff]; exact h1
      simp only [normalize_source_name]
      rw [hcc, hcn, if_neg hne, if_neg h2, if_neg (by rw [h3]; simp),
        if_neg (by rw [h4]; simp), hnone]

/-- `normalize_source_name` never returns an empty string. -/
theorem normalize_ne_nil {x : Option (List Char)} {s : List Char}
    (h : normalize_source_name x = some s) : s ≠ [] := by
  cases x with
  | none => exact absurd h (by simp [normalize_source_name])
  | some raw =>
    obtain ⟨h1, _, _, _, h5⟩ := normalize_eq_some h
    rcases h5 with hv | ⟨_, hs⟩
    · have hall : ∀ v ∈ SOURCE_NAME_MAP.map Prod.snd, v ≠ ([] : List Char) := by decide
      exact hall s (lookup_mem_values hv)
    · subst hs
      rw [ne_eq, cleanName_nil_iff]
      exact h1

/-- Decidable form: the first character is not whitespace. -/
def headNotSpace (s : List Char) : Bool :=
  match s.head? with
  | some c => !isPySpace c
  | none => true

/-- Decidable form: the last character is not whitespace. -/
def lastNotSpace (s : List Char) : Bool :=
  match s.getLast? with
  | some c => !isPySpace c
  | none => true

theorem headNotSpace_iff (s : List Char) :
    headNotSpace s = true ↔ ∀ c, s.head? = some c → isPySpace c = false := by
  unfold headNotSpace
  cases h : s.head? with
  | none =>
    simp only [true_iff]
    intro c hc
    exact Option.noConfusion hc
  | some a =>
    simp only [Bool.not_eq_eq_eq_not, Bool.not_true]
    constructor
    · intro ha c hc
      injection hc with hc
      subst hc
      exact ha
    · intro ha
      exact ha a rfl

theorem lastNotSpace_iff (s : List Char) :
    lastNotSpace s = true ↔ ∀ c, s.getLast? = some c → isPySpace c = false := by
  unfold lastNotSpace
  cases h : s.getLast? with
  | none =>
    simp only [true_iff]
    intro c hc
    exact Option.noConfusion hc
  | some a =>
    simp only [Bool.not_eq_eq_eq_not, Bool.not_true]
    constructor
    · intro ha c hc
      injection hc with hc
      subst hc
      exact ha
    · intro ha
      exact ha a rfl

/-- Decidable bundle equivalent to `WellSpaced`. -/
def wellSpacedB (s : List Char) : Prop :=
  (∀ c ∈ s, isPySpace c = true → c = ' ') ∧ noTwoSpaces s = true ∧
  headNotSpace s = true ∧ lastNotSpace s = true

instance wellSpacedB_decidable (s : List Char) : Decidable (wellSpacedB s) := by
  unfold wellSpacedB
  infer_instance

theorem wellSpacedB_iff (s : List Char) : wellSpacedB s ↔ WellSpaced s := by
  unfold wellSpacedB WellSpaced
  rw [headNotSpace_iff, lastNotSpace_iff]

/-- Invariants of every string returned by `normalize_source_name`:
non-empty, fully lower-case, and well-spaced. -/
theorem normalize_output_props {x : Option (List Char)} {s : List Char}
    (h : normalize_source_name x = some s) :
    s ≠ [] ∧ (∀ c ∈ s, pyToLower c = c) ∧ WellSpaced s := by
  cases x with
  | none => exact absurd h (by simp [normalize_source_name])
  | some raw =>
    obtain ⟨h1, _, _, _, h5⟩ := normalize_eq_some h
    rcases h5 with hv | ⟨_, hs⟩
    · have hall : ∀ v ∈ SOURCE_NAME_MAP.map Prod.snd,
          v ≠ ([] : List Char) ∧ (∀ c ∈ v, pyToLower c = c) ∧ wellSpacedB v := by
        decide
      obtain ⟨ha, hb, hc⟩ := hall s (lookup_mem_values hv)
      exact ⟨ha, hb, (wellSpacedB_iff s).mp hc⟩
    · subst hs
      refine ⟨by rw [ne_eq, cleanName_nil_iff]; exact h1, ?_, ?_⟩
      · intro c hc
        obtain ⟨a, _, haeq⟩ := List.mem_map.mp hc
        subst haeq
        exact pyToLower_idem a
      · exact wellSpaced_pyLower (wellSpaced_cleanCore raw)

/-! ### The unreachable double-space aliases -/

/-- `SOURCE_NAME_MAP` without the two double-space alias keys. -/
def SOURCE_NAME_MAP_pruned : List (List Char × List Char) :=
  [("world bank".toList, "world bank".toList),
   ("the world bank".toList, "world bank".toList),
   ("world bank group".toList, "world bank".toList),
   ("wdi".toList, "world development indicators".toList),
   ("world development indicators".toList, "world development indicators".toList),
   ("world development indicators (wdi)".toList, "world development indicators".toList),
   ("pip".toList, "poverty and inequality platform".toList),
   ("poverty and inequality platform".toList, "poverty and inequality platform".toList),
   ("imf".toList, "international monetary fund".toList),
   ("i.m.f.".toList, "international monetary fund".toList),
   ("international monetary fund".toList, "international monetary fund".toList)]

/-- Alternative normalizer using the pruned alias table (only the final
lookup differs from `normalize_source_name`). -/
def normalize_source_name_pruned : Option (List Char) → Option (List Char)
  | none => none
  | some raw =>
    if cleanCore raw = [] then none
    else if cleanName raw ∈ PSEUDO_SOURCE_NAMES then none
    else if containsSub "creative commons".toList (cleanName raw) then none
    else if containsSub "documents of the world bank".toList (cleanName raw) then none
    else
      match SOURCE_NAME_MAP_pruned.lookup (cleanName raw) with
      | some v => some v
      | none => some (cleanName raw)

theorem lookup_skip {k bad : List Char} {v : List Char} (h : ¬(k = bad)) :
    ∀ (l1 l2 : List (List Char × List Char)),
      (l1 ++ (bad, v) :: l2).lookup k = (l1 ++ l2).lookup k := by
  intro l1 l2
  induction l1 with
  | nil =>
    simp only [List.nil_append, List.lookup]
    have : (k == bad) = false := beq_eq_false_iff_ne.mpr h
    rw [this]
  | cons p rest ih =>
    simp only [List.cons_append, List.lookup]
    cases k == p.1 with
    | true => rfl
    | false => exact ih

/-- A key without adjacent double spaces never matches the two
double-space aliases, so the full and pruned tables agree on it. -/
theorem lookup_pruned (k : List Char) (h2 : noTwoSpaces k = true) :
    SOURCE_NAME_MAP.lookup k = SOURCE_NAME_MAP_pruned.lookup k := by
  have hb1 : ¬(k = "world  bank".toList) := by
    intro he
    rw [he] at h2
    exact absurd h2 (by decide)
  have hb2 : ¬(k = "world development  indicators".toList) := by
    intro he
    rw [he] at h2
    exact absurd h2 (by decide)
  have e1 : SOURCE_NAME_MAP =
      [("world bank".toList, "world bank".toList),
       ("the world bank".toList, "world bank".toList),
       ("world bank group".toList, "world bank".toList)] ++
      ("world  bank".toList, "world bank".toList) ::
      ([("wdi".toList, "world development indicators".toList),
        ("world development indicators".toList, "world development indicators".toList)] ++
       ("world development  indicators".toList, "world development indicators".toList) ::
       [("world development indicators (wdi)".toList, "world development indicators".toList),
        ("pip".toList, "poverty and inequality platform".toList),
        ("poverty and inequality platform".toList, "poverty and inequality platform".toList),
        ("imf".toList, "international monetary fund".toList),
        ("i.m.f.".toList, "international monetary fund".toList),
        ("international monetary fund".toList, "international monetary fund".toList)]) := by
    rfl
  rw [e1, lookup_skip hb1]
  rw [show ([("world bank".toList, "world bank".toList),
       ("the world bank".toList, "world bank".toList),
       ("world bank group".toList, "world bank".toList)] ++
      ([("wdi".toList, "world development indicators".toList),
        ("world development indicators".toList, "world development indicators".toList)] ++
       ("world development  indicators".toList, "world development indicators".toList) ::
       [("world development indicators (wdi)".toList, "world development indicators".toList),
        ("pip".toList, "poverty and inequality platform".toList),
        ("poverty and inequality platform".toList, "poverty and inequality platform".toList),
        ("imf".toList, "international monetary fund".toList),
        ("i.m.f.".toList, "international monetary fund".toList),
        ("international monetary fund".toList, "international monetary fund".toList)])) =
      ([("world bank".toList, "world bank".toList),
       ("the world bank".toList, "world bank".toList),
       ("world bank group".toList, "world bank".toList),
       ("wdi".toList, "world development indicators".toList),
       ("world development indicators".toList, "world development indicators".toList)] ++
       ("world development  indicators".toList, "world development indicators".toList) ::
       [("world development indicators (wdi)".toList, "world development indicators".toList),
        ("pip".toList, "poverty and inequality platform".toList),
        ("poverty and inequality platform".toList, "poverty and inequality platform".toList),
        ("imf".toList, "international monetary fund".toList),
        ("i.m.f.".toList, "international monetary fund".toList),
        ("international monetary fund".toList, "international monetary fund".toList)]) from rfl]
  rw [lookup_skip hb2]
  rfl

/-- The normalizer never distinguishes the full table from the pruned one. -/
theorem normalize_pruned_eq (x : Option (List Char)) :
    normalize_source_name x = normalize_source_name_pruned x := by
  cases x with
  | none => rfl
  | some raw =>
    simp only [normalize_source_name, normalize_source_name_pruned]
    rw [lookup_pruned (cleanName raw)
      (wellSpaced_pyLower (wellSpaced_cleanCore raw)).2.1]

/-! ### Year tokens: `re.findall(r"\\b((?:19|20)\\d\x7b2\x7d)\\b", s)`

With the word-boundary anchors on both sides, a match of this pattern is
exactly a maximal `\\w`-run of length four of the shape `19dd` / `20dd`,
so `findall` returns the year-shaped maximal word runs, in order. -/

/-- Split into maximal `\\w`-runs; `acc` holds the current run reversed. -/
def wordRunsAux : List Char → List Char → List (List Char)
  | acc, [] => if acc.isEmpty then [] else [acc.reverse]
  | acc, c :: cs =>
    if isWordChar c then wordRunsAux (c :: acc) cs
    else if acc.isEmpty then wordRunsAux [] cs
    else acc.reverse :: wordRunsAux [] cs

/-- The maximal word-character runs of a string, in order. -/
def wordRuns (s : List Char) : List (List Char) := wordRunsAux [] s

/-- Does a word run match `(19|20)\\d\\d` exactly? -/
def isYearToken : List Char → Bool
  | [a, b, c, d] =>
    ((a == '1' && b == '9') || (a == '2' && b == '0')) &&
      isDigitChar c && isDigitChar d
  | _ => false

/-- Model of `re.findall(r"\\b((?:19|20)\\d\x7b2\x7d)\\b", s)`. -/
def findYearTokens (s : List Char) : List (List Char) :=
  (wordRuns s).filter isYearToken

/-- Model of Python `int` on one character. -/
def charDigit (c : Char) : Option Nat :=
  if isDigitChar c then some (c.toNat - 48) else none

def toNatDigitsAux : Nat → List Char → Option Nat
  | acc, [] => some acc
  | acc, c :: cs =>
    match charDigit c with
    | some d => toNatDigitsAux (acc * 10 + d) cs
    | none => none

/-- Model of Python `int(s)` on the digit-only strings this code feeds it
(the regex year tokens); `none` models `ValueError`. -/
def toNatDigits (l : List Char) : Option Nat :=
  if l.isEmpty then none else toNatDigitsAux 0 l

theorem toNatDigitsAux_cons_digit {c : Char} (h : isDigitChar c = true)
    (acc : Nat) (cs : List Char) :
    toNatDigitsAux acc (c :: cs) = toNatDigitsAux (acc * 10 + (c.toNat - 48)) cs := by
  have hc : charDigit c = some (c.toNat - 48) := by
    unfold charDigit; rw [if_pos h]
  show (match charDigit c with
    | some d => toNatDigitsAux (acc * 10 + d) cs
    | none => none) = toNatDigitsAux (acc * 10 + (c.toNat - 48)) cs
  rw [hc]

/-- Every year-shaped token is accepted by the `int` model. -/
theorem yearToken_parses {tok : List Char} (h : isYearToken tok = true) :
    ∃ y, toNatDigits tok = some y := by
  rcases tok with _ | ⟨a, tl⟩
  · exact Bool.noConfusion h
  rcases tl with _ | ⟨b, tl⟩
  · exact Bool.noConfusion h
  rcases tl with _ | ⟨c, tl⟩
  · exact Bool.noConfusion h
  rcases tl with _ | ⟨d, tl⟩
  · exact Bool.noConfusion h
  rcases tl with _ | ⟨e, tl⟩
  case cons => exact Bool.noConfusion h
  simp only [isYearToken, Bool.and_eq_true, Bool.or_eq_true, beq_iff_eq] at h
  obtain ⟨⟨hab, hc⟩, hd⟩ := h
  have hda : isDigitChar a = true ∧ isDigitChar b = true := by
    rcases hab with ⟨ha, hb⟩ | ⟨ha, hb⟩ <;> subst ha <;> subst hb <;>
      exact ⟨by decide, by decide⟩
  rw [toNatDigits, if_neg (by simp), toNatDigitsAux_cons_digit hda.1,
    toNatDigitsAux_cons_digit hda.2, toNatDigitsAux_cons_digit hc,
    toNatDigitsAux_cons_digit hd]
  exact ⟨_, rfl⟩

/-- `wordRunsAux` commutes with lowering (which preserves word-char
status). -/
theorem wordRunsAux_lower (s : List Char) :
    ∀ acc, wordRunsAux (pyLower acc) (pyLower s) = (wordRunsAux acc s).map pyLower := by
  induction s with
  | nil =>
    intro acc
    simp only [pyLower, List.map_nil, wordRunsAux, List.isEmpty_eq_true, List.map_eq_nil_iff]
    by_cases ha : acc = []
    · rw [if_pos ha, if_pos ha]
      rfl
    · rw [if_neg ha, if_neg ha]
      simp [pyLower, List.map_reverse]
  | cons c cs ih =>
    intro acc
    simp only [pyLower, List.map_cons]
    show wordRunsAux (pyLower acc) (pyToLower c :: pyLower cs) = _
    unfold wordRunsAux
    rw [isWordChar_pyToLower]
    by_cases hw : isWordChar c = true
    · rw [if_pos hw, if_pos hw]
      show wordRunsAux (pyLower (c :: acc)) (pyLower cs) = _
      exact ih (c :: acc)
    · rw [if_neg hw, if_neg hw]
      by_cases ha : acc = []
      · subst ha
        rw [if_pos (by rfl), if_pos (by rfl)]
        exact ih []
      · have h1 : (pyLower acc).isEmpty = false := by
          simp only [List.isEmpty_eq_false, pyLower, ne_eq, List.map_eq_nil_iff]
          exact ha
        have h2 : acc.isEmpty = false := by
          simp only [List.isEmpty_eq_false, ne_eq]
          exact ha
        rw [if_neg (by simp [h1]), if_neg (by simp [h2])]
        rw [List.map_cons]
        congr 1
        · simp [pyLower, List.map_reverse]
        · exact ih []

/-- A year-shaped token consists of digits only, so lowering fixes it. -/
theorem yearToken_lower_fixed {tok : List Char} (h : isYearToken tok = true) :
    pyLower tok = tok := by
  rcases tok with _ | ⟨a, tl⟩
  · rfl
  rcases tl with _ | ⟨b, tl⟩
  · exact Bool.noConfusion h
  rcases tl with _ | ⟨c, tl⟩
  · exact Bool.noConfusion h
  rcases tl with _ | ⟨d, tl⟩
  · exact Bool.noConfusion h
  rcases tl with _ | ⟨e, tl⟩
  case cons => exact Bool.noConfusion h
  simp only [isYearToken, Bool.and_eq_true, Bool.or_eq_true, beq_iff_eq] at h
  obtain ⟨⟨hab, hc⟩, hd⟩ := h
  have hda : isDigitChar a = true ∧ isDigitChar b = true := by
    rcases hab with ⟨ha, hb⟩ | ⟨ha, hb⟩ <;> subst ha <;> subst hb <;>
      exact ⟨by decide, by decide⟩
  simp only [pyLower, List.map_cons, List.map_nil]
  rw [pyToLower_digit hda.1, pyToLower_digit hda.2, pyToLower_digit hc,
    pyToLower_digit hd]

/-- Lowering preserves year-token shape. -/
theorem isYearToken_lower (tok : List Char) :
    isYearToken (pyLower tok) = isYearToken tok := by
  by_cases h : isYearToken tok = true
  · rw [yearToken_lower_fixed h, h]
  · have h' : isYearToken tok = false := by
      revert h; cases isYearToken tok <;> simp
    rw [h']
    rcases tok with _ | ⟨a, tl⟩
    · rfl
    rcases tl with _ | ⟨b, tl⟩
    · rfl
    rcases tl with _ | ⟨c, tl⟩
    · rfl
    rcases tl with _ | ⟨d, tl⟩
    · rfl
    rcases tl with _ | ⟨e, tl⟩
    swap
    · rfl
    show (((pyToLower a == '1' && pyToLower b == '9') ||
      (pyToLower a == '2' && pyToLower b == '0')) &&
      isDigitChar (pyToLower c) && isDigitChar (pyToLower d)) = false
    have e1 : (pyToLower a == '1') = (a == '1') := by
      rw [Bool.eq_iff_iff, beq_iff_eq, beq_iff_eq]
      constructor
      · exact fun hx => pyToLower_eq_low (by decide) hx
      · intro hx; subst hx; decide
    have e2 : (pyToLower b == '9') = (b == '9') := by
      rw [Bool.eq_iff_iff, beq_iff_eq, beq_iff_eq]
      constructor
      · exact fun hx => pyToLower_eq_low (by decide) hx
      · intro hx; subst hx; decide
    have e3 : (pyToLower a == '2') = (a == '2') := by
      rw [Bool.eq_iff_iff, beq_iff_eq, beq_iff_eq]
      constructor
      · exact fun hx => pyToLower_eq_low (by decide) hx
      · intro hx; subst hx; decide
    have e4 : (pyToLower b == '0') = (b == '0') := by
      rw [Bool.eq_iff_iff, beq_iff_eq, beq_iff_eq]
      constructor
      · exact fun hx => pyToLower_eq_low (by decide) hx
      · intro hx; subst hx; decide
    rw [e1, e2, e3, e4, isDigitChar_pyToLower, isDigitChar_pyToLower]
    exact h'

/-- The year tokens of a lowered string are those of the string itself. -/
theorem findYearTokens_lower (s : List Char) :
    findYearTokens (pyLower s) = findYearTokens s := by
  unfold findYearTokens wordRuns
  have h0 : wordRunsAux (pyLower []) (pyLower s) = (wordRunsAux [] s).map pyLower :=
    wordRunsAux_lower s []
  simp only [pyLower, List.map_nil] at h0
  rw [show wordRunsAux [] (List.map pyToLower s) =
      wordRunsAux [] (pyLower s) from rfl] at h0
  rw [h0, List.filter_map]
  have hcong : (wordRunsAux [] s).filter (isYearToken ∘ pyLower) =
      (wordRunsAux [] s).filter isYearToken := by
    apply List.filter_congr
    intro tok _
    simp only [Function.comp_apply]
    rw [isYearToken_lower]
  rw [hcong]
  rw [show List.map pyLower (List.filter isYearToken (wordRunsAux [] s)) =
      List.map id (List.filter isYearToken (wordRunsAux [] s)) from
    List.map_congr_left (fun tok htok => by
      simp only [id]
      exact yearToken_lower_fixed (List.of_mem_filter htok)), List.map_id]

/-! ### Domains and URLs -/

/-- `MIN_VALID_YEAR`. -/
def MIN_VALID_YEAR : Nat := 1990

/-- `MAX_VALID_YEAR`. -/
def MAX_VALID_YEAR : Nat := 2025

/-- `PSEUDO_DATA_DOMAINS`: domains that should not be treated as data
sources. -/
def PSEUDO_DATA_DOMAINS : List (List Char) :=
  ["stata.com".toList,
   "www.stata.com".toList,
   "documents.worldbank.org".toList,
   "www.documents.worldbank.org".toList,
   "creativecommons.org".toList,
   "www.creativecommons.org".toList]

/-- `is_pseudo_data_domain(domain)`: deny-listed, or contains "stata".
(`domain or ""` only matters for `None`, which cannot reach it here.) -/
def is_pseudo_data_domain (domain : List Char) : Bool :=
  if pyLower domain ∈ PSEUDO_DATA_DOMAINS then true
  else if containsSub "stata".toList (pyLower domain) then true
  else false

/-- `is_pseudo_data_url(url)`: a gift-card phrase in the lowered URL. -/
def is_pseudo_data_url (url : List Char) : Bool :=
  containsSub "gift card".toList (pyLower url) ||
  containsSub "giftcard".toList (pyLower url) ||
  containsSub "gift-card".toList (pyLower url)

/-- Characters allowed in a URL scheme (`scheme_chars` of `urllib.parse`). -/
def isSchemeChar (c : Char) : Bool :=
  isDigitChar c || (65 ≤ c.toNat && c.toNat ≤ 90) ||
  (97 ≤ c.toNat && c.toNat ≤ 122) || c == '+' || c == '-' || c == '.'

def isAsciiAlpha (c : Char) : Bool :=
  (65 ≤ c.toNat && c.toNat ≤ 90) || (97 ≤ c.toNat && c.toNat ≤ 122)

/-- `urlsplit` sanitization: strip leading C0-control/space characters and
remove every tab, CR and LF. -/
def sanitizeUrl (u : List Char) : List Char :=
  (u.dropWhile (fun c => c.toNat ≤ 32)).filter
    (fun c => !(c == '\t' || c == '\r' || c == '\n'))

/-- Drop a leading `scheme:` as `urlsplit` does: an ASCII letter followed
by scheme characters up to the first colon. -/
def splitSchemeRest (u : List Char) : List Char :=
  match u.findIdx? (· == ':') with
  | some i =>
    if 0 < i && (u.take i).all isSchemeChar &&
        (match u.head? with
         | some c => isAsciiAlpha c
         | none => false) then
      u.drop (i + 1)
    else u
  | none => u

/-- Model of `_domain_of(url)` = `urlparse(url).netloc.lower()` with
exceptions mapped to `""`: the host part after `//`, up to the first `/`,
`?` or `#`, lower-cased; a bracket mismatch raises `ValueError`, which
`_domain_of` turns into the empty string. -/
def domain_of (u : List Char) : List Char :=
  let rest := splitSchemeRest (sanitizeUrl u)
  if "//".toList.isPrefixOf rest then
    let netloc := (rest.drop 2).takeWhile
      (fun c => !(c == '/' || c == '?' || c == '#'))
    if (netloc.contains '[') != (netloc.contains ']') then []
    else pyLower netloc
  else []

/-- `_domain_of` output is already lower-case. -/
theorem domain_of_lower (u : List Char) : pyLower (domain_of u) = domain_of u := by
  unfold domain_of
  dsimp only
  split
  · split
    · rfl
    · exact pyLower_idem _
  · rfl

/-! ### Records and the rule engine -/

/-- One extracted record. Fields that may be absent or `None` in the
Python dict are `Option`s; entries of `sources_mentions` may themselves be
`None`. -/
structure Record where
  sources_mentions : Option (List (Option (List Char))) := none
  urls : Option (List (List Char)) := none
  dataset_candidates : Option (List (List Char)) := none
  time_mentions : Option (List (List Char)) := none
  deriving DecidableEq

/-- `record.get(key) or []`. -/
def getOr {α : Type} : Option (List α) → List α
  | none => []
  | some l => l

/-- The `normalized_sources` loop shared verbatim by
`compute_needs_review_for_record`, `summarize_sources` and
`save_visualizations`: keep truthy (`if norm:`) results of
`normalize_source_name`. -/
def normalizedSources (xs : List (Option (List Char))) : List (List Char) :=
  xs.filterMap (fun s =>
    match normalize_source_name s with
    | some n => if n.isEmpty then none else some n
    | none => none)

/-- One regex token of the future-year loop: parsed year above
`MAX_VALID_YEAR` (an `int` failure is caught by `except ValueError:
continue` and leaves the flag unchanged). -/
def token_future (tok : List Char) : Bool :=
  match toNatDigits tok with
  | some y => decide (MAX_VALID_YEAR < y)
  | none => false

/-- Per-URL branch of the suspicious-URL loop (the `continue` after a
gift-card hit skips the domain check). -/
def url_suspicious (u : List Char) : Bool :=
  if is_pseudo_data_url u then true
  else !(domain_of u).isEmpty && is_pseudo_data_domain (domain_of u)

/-- `compute_needs_review_for_record(record)`: the four review rules
combined by successive `if cond: flag = True` statements. -/
def compute_needs_review_for_record (r : Record) : Bool :=
  let normalized_sources := normalizedSources (getOr r.sources_mentions)
  let urls := getOr r.urls
  let datasets := getOr r.dataset_candidates
  let time_mentions := getOr r.time_mentions
  let has_future_year := time_mentions.foldl
    (fun fl t => (findYearTokens t).foldl
      (fun fl2 tok => if token_future tok then true else fl2) fl) false
  let has_suspicious_domain := urls.foldl
    (fun fl u => if url_suspicious u then true else fl) false
  let c1 := if normalized_sources.isEmpty then true else false
  let c2 := if urls.isEmpty && datasets.isEmpty then true else c1
  let c3 := if has_future_year then true else c2
  let c4 := if has_suspicious_domain then true else c3
  c4

/-! ### The four review rules as stated by the specification -/

/-- R1: normalizing every entry of `sources_mentions` yields no non-`None`
result. -/
def R1 (r : Record) : Prop :=
  ∀ s ∈ getOr r.sources_mentions, normalize_source_name s = none

/-- R2: no URLs and no dataset candidates. -/
def R2 (r : Record) : Prop :=
  getOr r.urls = [] ∧ getOr r.dataset_candidates = []

/-- R3: some 19dd/20dd token in some fragment of `time_mentions` parses to
a year strictly greater than `MAX_VALID_YEAR`. -/
def R3 (r : Record) : Prop :=
  ∃ t ∈ getOr r.time_mentions, ∃ tok ∈ findYearTokens t,
    ∃ y, toNatDigits tok = some y ∧ MAX_VALID_YEAR < y

/-- R4: some URL carries a gift-card phrase (case-insensitively), or its
parsed domain is deny-listed or contains "stata". -/
def R4 (r : Record) : Prop :=
  ∃ u ∈ getOr r.urls,
    (containsSub "gift card".toList (pyLower u) = true ∨
     containsSub "giftcard".toList (pyLower u) = true ∨
     containsSub "gift-card".toList (pyLower u) = true) ∨
    domain_of u ∈ PSEUDO_DATA_DOMAINS ∨
    containsSub "stata".toList (domain_of u) = true

theorem foldl_flag {α : Type} (p : α → Bool) (l : List α) (b : Bool) :
    l.foldl (fun fl x => if p x then true else fl) b = (b || l.any p) := by
  induction l generalizing b with
  | nil => simp
  | cons x xs ih =>
    simp only [List.foldl_cons, List.any_cons]
    by_cases hp : p x = true
    · rw [if_pos hp, ih true, hp]
      simp
    · have hp' : p x = false := by revert hp; cases p x <;> simp
      rw [if_neg (by simp [hp']), ih b, hp']
      simp

theorem foldl_flag_or {α : Type} (q : α → Bool) (l : List α) (b : Bool) :
    l.foldl (fun fl x => fl || q x) b = (b || l.any q) := by
  induction l generalizing b with
  | nil => simp
  | cons x xs ih =>
    simp only [List.foldl_cons, List.any_cons, ih, Bool.or_assoc]

theorem r1_iff (r : Record) :
    ((normalizedSources (getOr r.sources_mentions)).isEmpty = true) ↔ R1 r := by
  rw [List.isEmpty_iff]
  unfold normalizedSources R1
  rw [List.filterMap_eq_nil_iff]
  constructor
  · intro h s hs
    have := h s hs
    cases hn : normalize_source_name s with
    | none => rfl
    | some n =>
      rw [hn] at this
      have hne : n ≠ [] := normalize_ne_nil hn
      have this2 : (if n.isEmpty = true then (none : Option (List Char))
          else some n) = none := this
      rw [if_neg (by simpa [List.isEmpty_iff] using hne)] at this2
      exact absurd this2 (by simp)
  · intro h s hs
    rw [h s hs]

theorem r2_iff (r : Record) :
    (((getOr r.urls).isEmpty && (getOr r.dataset_candidates).isEmpty) = true) ↔ R2 r := by
  unfold R2
  simp [List.isEmpty_iff]

theorem token_future_iff (tok : List Char) :
    token_future tok = true ↔ ∃ y, toNatDigits tok = some y ∧ MAX_VALID_YEAR < y := by
  unfold token_future
  cases h : toNatDigits tok with
  | none => simp
  | some y => simp

theorem r3_iff (r : Record) :
    ((getOr r.time_mentions).any
      (fun t => (findYearTokens t).any token_future) = true) ↔ R3 r := by
  rw [List.any_eq_true]
  unfold R3
  constructor
  · rintro ⟨t, ht, htok⟩
    rw [List.any_eq_true] at htok
    obtain ⟨tok, htk, hf⟩ := htok
    obtain ⟨y, hy, hlt⟩ := (token_future_iff tok).mp hf
    exact ⟨t, ht, tok, htk, y, hy, hlt⟩
  · rintro ⟨t, ht, tok, htk, y, hy, hlt⟩
    exact ⟨t, ht, List.any_eq_true.mpr
      ⟨tok, htk, (token_future_iff tok).mpr ⟨y, hy, hlt⟩⟩⟩

theorem url_suspicious_iff (u : List Char) :
    url_suspicious u = true ↔
      ((containsSub "gift card".toList (pyLower u) = true ∨
        containsSub "giftcard".toList (pyLower u) = true ∨
        containsSub "gift-card".toList (pyLower u) = true) ∨
       domain_of u ∈ PSEUDO_DATA_DOMAINS ∨
       containsSub "stata".toList (domain_of u) = true) := by
  unfold url_suspicious is_pseudo_data_url is_pseudo_data_domain
  rw [domain_of_lower]
  by_cases hg : (containsSub "gift card".toList (pyLower u) ||
      containsSub "giftcard".toList (pyLower u) ||
      containsSub "gift-card".toList (pyLower u)) = true
  · rw [if_pos hg]
    simp only [Bool.or_eq_true] at hg
    simp only [true_iff]
    left
    tauto
  · rw [if_neg hg]
    simp only [Bool.or_eq_true] at hg
    push_neg at hg
    constructor
    · intro h
      rw [Bool.and_eq_true] at h
      obtain ⟨hne, hd⟩ := h
      right
      by_cases hmem : domain_of u ∈ PSEUDO_DATA_DOMAINS
      · exact Or.inl hmem
      · rw [if_neg hmem] at hd
        by_cases hst : containsSub "stata".toList (domain_of u) = true
        · exact Or.inr hst
        · rw [if_neg hst] at hd
          exact absurd hd (by simp)
    · intro h
      rcases h with hgift | hmem | hst
      · exact absurd hgift (by tauto)
      · rw [Bool.and_eq_true]
        constructor
        · have hall : ∀ d ∈ PSEUDO_DATA_DOMAINS, d ≠ ([] : List Char) := by decide
          have := hall _ hmem
          simp only [Bool.not_eq_eq_eq_not, Bool.not_true, List.isEmpty_eq_false, ne_eq]
          exact this
        · rw [if_pos hmem]
      · rw [Bool.and_eq_true]
        have hdne : domain_of u ≠ [] := by
          intro he
          rw [he] at hst
          exact absurd hst (by decide)
        constructor
        · simp only [Bool.not_eq_eq_eq_not, Bool.not_true, List.isEmpty_eq_false, ne_eq]
          exact hdne
        · by_cases hmem : domain_of u ∈ PSEUDO_DATA_DOMAINS
          · rw [if_pos hmem]
          · rw [if_neg hmem, if_pos hst]

theorem r4_iff (r : Record) :
    ((getOr r.urls).any url_suspicious = true) ↔ R4 r := by
  rw [List.any_eq_true]
  unfold R4
  constructor
  · rintro ⟨u, hu, hs⟩
    exact ⟨u, hu, (url_suspicious_iff u).mp hs⟩
  · rintro ⟨u, hu, hs⟩
    exact ⟨u, hu, (url_suspicious_iff u).mpr hs⟩

/-- The rule engine as a single disjunction of the four flags. -/
theorem compute_eq_or (r : Record) :
    compute_needs_review_for_record r =
      ((normalizedSources (getOr r.sources_mentions)).isEmpty ||
       ((getOr r.urls).isEmpty && (getOr r.dataset_candidates).isEmpty) ||
       (getOr r.time_mentions).any (fun t => (findYearTokens t).any token_future) ||
       (getOr r.urls).any url_suspicious) := by
  unfold compute_needs_review_for_record
  dsimp only
  simp only [foldl_flag, foldl_flag_or, Bool.false_or]
  cases h1 : (normalizedSources (getOr r.sources_mentions)).isEmpty <;>
    cases h2 : ((getOr r.urls).isEmpty && (getOr r.dataset_candidates).isEmpty) <;>
    cases h3 : (getOr r.time_mentions).any (fun t => (findYearTokens t).any token_future) <;>
    cases h4 : (getOr r.urls).any url_suspicious <;>
    rfl

/-- C1: the rule engine returns true iff at least one of the four rules
R1-R4 holds, and false when all four predicates are false. -/
theorem compute_needs_review_iff_rules (r : Record) :
    compute_needs_review_for_record r = true ↔ (R1 r ∨ R2 r ∨ R3 r ∨ R4 r) := by
  rw [compute_eq_or]
  simp only [Bool.or_eq_true]
  rw [r1_iff, r2_iff, r3_iff, r4_iff]
  tauto

/-! ### Aggregators -/

/-- `summarize_sources(records)`: the source Counter modelled as the
ordered list of its increments. -/
def summarize_sources (records : List Record) : List (List Char) :=
  records.flatMap (fun r => normalizedSources (getOr r.sources_mentions))

/-- `summarize_needs_review(records)`: the dict `{"True": ..., "False":
max(0, len - true_count)}` as a pair of Python ints. -/
def summarize_needs_review (records : List Record) : Int × Int :=
  let true_count := records.foldl
    (fun acc r => if compute_needs_review_for_record r then acc + 1 else acc)
    (0 : Int)
  (true_count, max 0 ((records.length : Int) - true_count))

/-- `summarize_years(records)`: the year Counter modelled as the ordered
list of its increments (tokens that parse and lie in the valid range). -/
def summarize_years (records : List Record) : List Nat :=
  records.flatMap (fun r => (getOr r.time_mentions).flatMap (fun t =>
    (findYearTokens t).filterMap (fun tok =>
      match toNatDigits tok with
      | some y =>
        if MIN_VALID_YEAR ≤ y && y ≤ MAX_VALID_YEAR then some y else none
      | none => none)))

/-- The per-record `needs_review` recomputation inside
`save_visualizations` (the pure flag logic of its record loop; the chart
counters do not feed back into the flag). -/
def save_visualizations_needs_review (r : Record) : Bool :=
  let normalized_sources := normalizedSources (getOr r.sources_mentions)
  let urls := getOr r.urls
  let datasets := getOr r.dataset_candidates
  let has_suspicious_domain := urls.foldl
    (fun fl u =>
      if is_pseudo_data_url u then true
      else if !(domain_of u).isEmpty && is_pseudo_data_domain (domain_of u) then true
      else fl) false
  let has_future_year := (getOr r.time_mentions).foldl
    (fun fl t => (findYearTokens t).foldl
      (fun fl2 tok => if token_future tok then true else fl2) fl) false
  let c1 := if normalized_sources.isEmpty then true else false
  let c2 := if urls.isEmpty && datasets.isEmpty then true else c1
  let c3 := if has_future_year then true else c2
  let c4 := if has_suspicious_domain then true else c3
  c4

theorem foldl_flag_two {α : Type} (p q : α → Bool) (l : List α) (b : Bool) :
    l.foldl (fun fl x => if p x then true else if q x then true else fl) b =
      (b || l.any (fun x => p x || q x)) := by
  induction l generalizing b with
  | nil => simp
  | cons x xs ih =>
    simp only [List.foldl_cons, List.any_cons]
    by_cases hp : p x = true
    · rw [if_pos hp, ih true, hp]
      simp
    · have hp' : p x = false := by revert hp; cases p x <;> simp
      rw [if_neg (by simp [hp'])]
      by_cases hq : q x = true
      · rw [if_pos hq, ih true, hp', hq]
        simp
      · have hq' : q x = false := by revert hq; cases q x <;> simp
        rw [if_neg (by simp [hq']), ih b, hp', hq']
        simp

theorem url_suspicious_eq (u : List Char) :
    url_suspicious u =
      (is_pseudo_data_url u ||
       (!(domain_of u).isEmpty && is_pseudo_data_domain (domain_of u))) := by
  unfold url_suspicious
  by_cases h : is_pseudo_data_url u = true
  · rw [if_pos h, h]
    simp
  · have h' : is_pseudo_data_url u = false := by
      revert h; cases is_pseudo_data_url u <;> simp
    rw [if_neg (by simp [h']), h']
    simp

/-- The aggregator recomputation agrees with the rule engine on every
record. -/
theorem save_vis_eq_compute (r : Record) :
    save_visualizations_needs_review r = compute_needs_review_for_record r := by
  rw [compute_eq_or]
  unfold save_visualizations_needs_review
  dsimp only
  simp only [foldl_flag, foldl_flag_or, foldl_flag_two, Bool.false_or]
  have hfun : (fun u => is_pseudo_data_url u ||
      (!(domain_of u).isEmpty && is_pseudo_data_domain (domain_of u))) =
      url_suspicious := by
    funext u
    rw [url_suspicious_eq]
  rw [hfun]
  cases h1 : (normalizedSources (getOr r.sources_mentions)).isEmpty <;>
    cases h2 : ((getOr r.urls).isEmpty && (getOr r.dataset_candidates).isEmpty) <;>
    cases h3 : (getOr r.time_mentions).any
      (fun t => (findYearTokens t).any token_future) <;>
    cases h4 : (getOr r.urls).any url_suspicious <;>
    rfl

theorem foldl_count (p : Record → Bool) (l : List Record) (b : Int) :
    l.foldl (fun acc r => if p r then acc + 1 else acc) b =
      b + (l.countP p : Int) := by
  induction l generalizing b with
  | nil => simp
  | cons x xs ih =>
    simp only [List.foldl_cons]
    by_cases hp : p x = true
    · rw [if_pos hp, ih, List.countP_cons_of_pos _ _ hp]
      push_cast
      ring
    · have hp' : p x = false := by revert hp; cases p x <;> simp
      rw [if_neg (by simp [hp']), ih, List.countP_cons_of_neg _ _ (by simp [hp'])]

theorem countP_add_countP_not (p : Record → Bool) (l : List Record) :
    l.countP p + l.countP (fun x => !p x) = l.length := by
  induction l with
  | nil => rfl
  | cons x xs ih =>
    by_cases hp : p x = true
    · rw [List.countP_cons_of_pos _ _ hp,
        List.countP_cons_of_neg _ _ (by simp [hp]), List.length_cons]
      omega
    · have hp' : p x = false := by revert hp; cases p x <;> simp
      rw [List.countP_cons_of_neg _ _ (by simp [hp']),
        List.countP_cons_of_pos _ _ (by simp [hp']), List.length_cons]
      omega

/-- C2: the True count of `summarize_needs_review` is the number of records
the rule engine flags, the False count is the number of remaining records,
and the flag recomputed inline by `save_visualizations` equals the rule
engine on every record. -/
theorem summarize_needs_review_counts (records : List Record) (r : Record) :
    (summarize_needs_review records).1 =
      (records.countP compute_needs_review_for_record : Int) ∧
    (summarize_needs_review records).2 =
      (records.countP (fun x => !compute_needs_review_for_record x) : Int) ∧
    save_visualizations_needs_review r = compute_needs_review_for_record r := by
  refine ⟨?_, ?_, save_vis_eq_compute r⟩
  · unfold summarize_needs_review
    rw [foldl_count]
    simp
  · unfold summarize_needs_review
    dsimp only
    rw [foldl_count]
    have h1 := countP_add_countP_not compute_needs_review_for_record records
    have h2 : records.countP compute_needs_review_for_record ≤ records.length :=
      List.countP_le_length _
    omega

/-! ### Year histogram (C4) -/

/-- All parsed year tokens across the records, before range filtering. -/
def allYearEntries (records : List Record) : List Nat :=
  records.flatMap (fun r => (getOr r.time_mentions).flatMap (fun t =>
    (findYearTokens t).filterMap toNatDigits))

theorem filterMap_year_range (toks : List (List Char)) :
    toks.filterMap (fun tok =>
      match toNatDigits tok with
      | some y =>
        if MIN_VALID_YEAR ≤ y && y ≤ MAX_VALID_YEAR then some y else none
      | none => none) =
    (toks.filterMap toNatDigits).filter
      (fun y => MIN_VALID_YEAR ≤ y && y ≤ MAX_VALID_YEAR) := by
  induction toks with
  | nil => rfl
  | cons t ts ih =>
    rw [List.filterMap_cons, List.filterMap_cons]
    cases h : toNatDigits t with
    | none => simpa using ih
    | some y =>
      dsimp only
      by_cases hy : (MIN_VALID_YEAR ≤ y && y ≤ MAX_VALID_YEAR) = true
      · rw [if_pos hy]
        dsimp only
        rw [ih, List.filter_cons, if_pos hy]
      · have hy' : (MIN_VALID_YEAR ≤ y && y ≤ MAX_VALID_YEAR) = false := by
          revert hy; cases (MIN_VALID_YEAR ≤ y && y ≤ MAX_VALID_YEAR) <;> simp
        rw [if_neg (by simp [hy'])]
        dsimp only
        rw [ih, List.filter_cons, if_neg (by simp [hy'])]

theorem filter_flatMap {α β : Type} (l : List α) (f : α → List β) (p : β → Bool) :
    l.flatMap (fun a => (f a).filter p) = (l.flatMap f).filter p := by
  induction l with
  | nil => rfl
  | cons x xs ih =>
    rw [List.flatMap_cons, List.flatMap_cons, List.filter_append, ih]

/-- `summarize_years` is the range filter of the full token multiset. -/
theorem summarize_years_eq_filter (records : List Record) :
    summarize_years records =
      (allYearEntries records).filter
        (fun y => MIN_VALID_YEAR ≤ y && y ≤ MAX_VALID_YEAR) := by
  unfold summarize_years allYearEntries
  rw [← filter_flatMap]
  congr 1
  funext r
  rw [← filter_flatMap]
  congr 1
  funext t
  exact filterMap_year_range _

theorem r3_implies_compute {r : Record} (h : R3 r) :
    compute_needs_review_for_record r = true := by
  rw [compute_eq_or]
  simp only [Bool.or_eq_true]
  left; right
  exact (r3_iff r).mpr h

/-- C4: the year histogram counts exactly the in-range (1990-2025) year
tokens of the records, an out-of-range year contributes nothing, yet a
year above 2025 still fires R3 and flags its record. -/
theorem summarize_years_counts (records : List Record) (y : Nat) :
    ((MIN_VALID_YEAR ≤ y ∧ y ≤ MAX_VALID_YEAR) →
      (summarize_years records).count y = (allYearEntries records).count y) ∧
    (¬(MIN_VALID_YEAR ≤ y ∧ y ≤ MAX_VALID_YEAR) →
      (summarize_years records).count y = 0) ∧
    (∀ r : Record, R3 r → compute_needs_review_for_record r = true) := by
  refine ⟨?_, ?_, fun r hr => r3_implies_compute hr⟩
  · intro hy
    rw [summarize_years_eq_filter]
    exact List.count_filter (by simp [hy.1, hy.2])
  · intro hy
    rw [summarize_years_eq_filter, List.count_eq_zero]
    intro hmem
    have := List.of_mem_filter hmem
    simp only [Bool.and_eq_true, decide_eq_true_eq] at this
    exact hy this

/-! ### Order independence (C8) -/

/-- C8: permuting the records permutes the source and year counters
(counter equality is permutation of the increment lists) and leaves the
needs-review counts unchanged; the aggregators are pure functions. -/
theorem aggregators_perm_invariant {rs rs' : List Record} (h : rs.Perm rs') :
    (summarize_sources rs).Perm (summarize_sources rs') ∧
    summarize_needs_review rs = summarize_needs_review rs' ∧
    (summarize_years rs).Perm (summarize_years rs') := by
  refine ⟨h.flatMap_right _, ?_, h.flatMap_right _⟩
  unfold summarize_needs_review
  dsimp only
  rw [foldl_count, foldl_count, h.countP_eq, h.length_eq]

/-- A record citing a canonical source with a data URL and a past year. -/
def recSampleA : Record :=
  { sources_mentions := some [some "World Bank".toList],
    urls := some ["https://data.worldbank.org/x".toList],
    dataset_candidates := some ["WDI".toList],
    time_mentions := some ["published in 2020".toList] }

/-- A record with a pseudo-source, no URLs and a future year. -/
def recSampleB : Record :=
  { sources_mentions := some [some "Creative Commons".toList, none],
    urls := some [],
    dataset_candidates := some [],
    time_mentions := some ["forecast for 2099".toList] }

theorem aggregators_perm_invariant_witness :
    ([recSampleA, recSampleB].Perm [recSampleB, recSampleA]) ∧
    ((summarize_sources [recSampleA, recSampleB]).Perm
        (summarize_sources [recSampleB, recSampleA]) ∧
      summarize_needs_review [recSampleA, recSampleB] =
        summarize_needs_review [recSampleB, recSampleA] ∧
      (summarize_years [recSampleA, recSampleB]).Perm
        (summarize_years [recSampleB, recSampleA])) :=
  ⟨by decide, aggregators_perm_invariant (by decide)⟩

/-! ### Idempotence (C5) -/

/-- C5: `normalize_source_name` is idempotent: applying it to its own
result (including the `None` sentinel) changes nothing. -/
theorem normalize_source_name_idempotent (x : Option (List Char)) :
    normalize_source_name (normalize_source_name x) = normalize_source_name x := by
  cases hx : normalize_source_name x with
  | none => rfl
  | some s => exact normalize_fix hx

/-! ### Pseudo-source dropping (C3) -/

/-- C3 counterexample: a cleaned string that strictly contains the variant
"documents of world bank" (one of the spec's listed variants) is NOT
discarded: `normalize_source_name` returns it unchanged instead of the
`None` sentinel. -/
theorem normalize_variant_substring_cex :
    containsSub "documents of world bank".toList
      (cleanName "x documents of world bank".toList) = true ∧
    "documents of world bank".toList ∈ PSEUDO_SOURCE_NAMES ∧
    normalize_source_name (some "x documents of world bank".toList) =
      some "x documents of world bank".toList := by
  decide

/-- C3 amended: after cleaning, a string containing "creative commons" or
containing "documents of the world bank" as a substring, or exactly equal
to one of the pseudo-source variants, is discarded (the other variants
are dropped only on exact match, not as substrings). -/
theorem normalize_drops_pseudo (raw : List Char)
    (h : containsSub "creative commons".toList (cleanName raw) = true ∨
         containsSub "documents of the world bank".toList (cleanName raw) = true ∨
         cleanName raw ∈ PSEUDO_SOURCE_NAMES) :
    normalize_source_name (some raw) = none := by
  simp only [normalize_source_name]
  by_cases h1 : cleanCore raw = []
  · rw [if_pos h1]
  · rw [if_neg h1]
    by_cases h2 : cleanName raw ∈ PSEUDO_SOURCE_NAMES
    · rw [if_pos h2]
    · rw [if_neg h2]
      rcases h with hcc | hdw | hps
      · rw [if_pos hcc]
      · by_cases h3 : containsSub "creative commons".toList (cleanName raw) = true
        · rw [if_pos h3]
        · rw [if_neg h3, if_pos hdw]
      · exact absurd hps h2

theorem normalize_drops_pseudo_witness :
    (containsSub "creative commons".toList
      (cleanName "The Creative Commons license".toList) = true) ∧
    normalize_source_name (some "The Creative Commons license".toList) = none :=
  ⟨by decide, normalize_drops_pseudo "The Creative Commons license".toList
    (Or.inl (by decide))⟩

/-! ### Output invariants (C10) -/

/-- C10: every string output of `normalize_source_name` is non-empty,
fully lower-case, stripped, with every whitespace character a single
space (hence no CR, LF or TAB and no two adjacent spaces); renormalizing
an output is the identity, and the two double-space alias keys of
`SOURCE_NAME_MAP` can never be matched: removing them leaves the
normalizer unchanged on every input. -/
theorem normalize_output_invariants :
    (∀ x s, normalize_source_name x = some s →
      s ≠ [] ∧ (∀ c ∈ s, pyToLower c = c) ∧
      (∀ c ∈ s, isPySpace c = true → c = ' ') ∧
      '\r' ∉ s ∧ '\n' ∉ s ∧ '\t' ∉ s ∧
      noTwoSpaces s = true ∧
      s.head? ≠ some ' ' ∧ s.getLast? ≠ some ' ' ∧
      normalize_source_name (some s) = some s) ∧
    (∀ x, normalize_source_name x = normalize_source_name_pruned x) := by
  constructor
  · intro x s h
    obtain ⟨hne, hlow, hws⟩ := normalize_output_props h
    obtain ⟨hsp, h2, hhd, hlast⟩ := hws
    refine ⟨hne, hlow, hsp, ?_, ?_, ?_, h2, ?_, ?_, normalize_fix h⟩
    · intro hmem
      exact absurd (hsp _ hmem (by decide)) (by decide)
    · intro hmem
      exact absurd (hsp _ hmem (by decide)) (by decide)
    · intro hmem
      exact absurd (hsp _ hmem (by decide)) (by decide)
    · intro hh
      exact absurd (hhd ' ' hh) (by decide)
    · intro hh
      exact absurd (hlast ' ' hh) (by decide)
  · exact normalize_pruned_eq

theorem normalize_output_invariants_witness :
    "world bank".toList ≠ [] ∧
    (∀ c ∈ "world bank".toList, pyToLower c = c) ∧
    (∀ c ∈ "world bank".toList, isPySpace c = true → c = ' ') ∧
    '\r' ∉ "world bank".toList ∧ '\n' ∉ "world bank".toList ∧
    '\t' ∉ "world bank".toList ∧
    noTwoSpaces "world bank".toList = true ∧
    "world bank".toList.head? ≠ some ' ' ∧
    "world bank".toList.getLast? ≠ some ' ' ∧
    normalize_source_name (some "world bank".toList) = some "world bank".toList :=
  normalize_output_invariants.1 (some "  The   World  Bank ".toList)
    "world bank".toList (by decide)

/-! ### The metadata extractor (`ai_extract_metadata`) -/

/-- The result dict of `ai_extract_metadata`. -/
structure AiMeta where
  sources_ai : List (List Char)
  years_ai : List Nat
  has_downloadable_data_ai : Bool
  notes_ai : List Char
  deriving DecidableEq

/-- `possible_source_phrases`. -/
def possible_source_phrases : List (List Char) :=
  ["world bank".toList, "world bank group".toList, "wdi".toList,
   "world development indicators".toList, "pip".toList,
   "poverty and inequality platform".toList, "imf".toList,
   "international monetary fund".toList, "world health organization".toList,
   "who".toList, "unicef".toList, "unesco".toList]

/-- `download_keywords`. -/
def download_keywords : List (List Char) :=
  ["download the data".toList, "data can be downloaded".toList,
   "available for download".toList, "data are available at".toList,
   "data is available at".toList, "dataset is available at".toList,
   "this data is available at".toList, "publicly available data".toList,
   "can be accessed at".toList, "available online at".toList]

/-- Insertion into an ascending list. -/
def insertSorted (y : Nat) : List Nat → List Nat
  | [] => [y]
  | x :: xs => if y ≤ x then y :: x :: xs else x :: insertSorted y xs

/-- `sorted(set(l))`: the distinct elements in ascending order. -/
def sortedDedup (l : List Nat) : List Nat :=
  l.dedup.foldr insertSorted []

/-- The source-phrase accumulation loop of `ai_extract_metadata`
(`if norm and norm not in sources_found: append`). -/
def sourcesFound (t : List Char) : List (List Char) :=
  possible_source_phrases.foldl
    (fun acc phrase =>
      if containsSub phrase t then
        match normalize_source_name (some phrase) with
        | some norm => if norm ≠ [] ∧ norm ∉ acc then acc ++ [norm] else acc
        | none => acc
      else acc) []

/-- `ai_extract_metadata(text)`. -/
def ai_extract_metadata (text : List Char) : AiMeta :=
  if text.isEmpty then
    { sources_ai := [], years_ai := [],
      has_downloadable_data_ai := false, notes_ai := "empty text".toList }
  else
    { sources_ai := sourcesFound (pyLower text),
      years_ai := sortedDedup ((findYearTokens (pyLower text)).filterMap toNatDigits),
      has_downloadable_data_ai :=
        download_keywords.any (fun kw => containsSub kw (pyLower text)),
      notes_ai :=
        "rule-based extraction; replace with LLM/NER in the future".toList }

/-! ### URL extraction (`extract_urls_from_text`) -/

/-- A character allowed in the body of `https?://[^\\s)\x22\x27>]+`. -/
def urlBodyChar (c : Char) : Bool :=
  !(isPySpace c || c == ')' || c == '"' || c == '\x27' || c == '>')

/-- Try to match the URL regex at the start of `s` (greedy `s?` first). -/
def tryUrlAt (s : List Char) : Option (List Char) :=
  if "https://".toList.isPrefixOf s then
    if ((s.drop 8).takeWhile urlBodyChar).isEmpty then none
    else some ("https://".toList ++ (s.drop 8).takeWhile urlBodyChar)
  else if "http://".toList.isPrefixOf s then
    if ((s.drop 7).takeWhile urlBodyChar).isEmpty then none
    else some ("http://".toList ++ (s.drop 7).takeWhile urlBodyChar)
  else none

/-- `re.findall` scan for the URL regex: left to right, non-overlapping
(each match is at least 8 characters, so the length fuel suffices). -/
def extractUrlsAux : Nat → List Char → List (List Char)
  | 0, _ => []
  | _ + 1, [] => []
  | fuel + 1, c :: cs =>
    match tryUrlAt (c :: cs) with
    | some url => url :: extractUrlsAux fuel ((c :: cs).drop url.length)
    | none => extractUrlsAux fuel cs

/-- `extract_urls_from_text(text)`. -/
def extract_urls_from_text (text : List Char) : List (List Char) :=
  if text.isEmpty then [] else extractUrlsAux text.length text

/-! ### The batch helper (`parse_pdfs_to_csv`) -/

/-- The `temp_record` that `parse_pdfs_to_csv` builds from one document's
normalized text (the two boolean fields it also sets are not rule-engine
inputs). -/
def buildRecord (text : List Char) : Record :=
  { sources_mentions := some ((ai_extract_metadata text).sources_ai.map some),
    urls := some (extract_urls_from_text text),
    dataset_candidates := some [],
    time_mentions := some [text] }

/-- `years_clipped`: the extractor years restricted to the valid range,
as written by `parse_pdfs_to_csv`. -/
def csv_years_clipped (text : List Char) : List Nat :=
  (ai_extract_metadata text).years_ai.filter
    (fun y => MIN_VALID_YEAR ≤ y && y ≤ MAX_VALID_YEAR)

/-- The CSV `years_ai` field: `"; ".join(str(y) for y in years_clipped)`. -/
def csv_row_years_ai (text : List Char) : List Char :=
  List.intercalate "; ".toList
    ((csv_years_clipped text).map (fun y => Nat.toDigits 10 y))

/-- The claim's reading of the CSV field: the semicolon-joined full sorted
set of year tokens (the extractor years, unclipped). -/
def claimed_years_row (text : List Char) : List Char :=
  List.intercalate "; ".toList
    ((ai_extract_metadata text).years_ai.map (fun y => Nat.toDigits 10 y))

/-! ### Exception freedom (C6): strict variants

`int(y_str)` is the one fallible primitive the rule engine and extractor
apply (its `ValueError` is caught and skipped). The strict variants below
abort with `none` on any failing conversion instead; showing they always
return `some` of the plain result shows the `try/except` never fires and
no exception can propagate, for records with absent/`None`/empty fields
included. -/

/-- All-or-nothing mapping: `none` as soon as one element fails. -/
def mapStrict {α β : Type} (f : α → Option β) : List α → Option (List β)
  | [] => some []
  | x :: xs =>
    match f x with
    | some y =>
      match mapStrict f xs with
      | some ys => some (y :: ys)
      | none => none
    | none => none

theorem mapStrict_eq_map {α β : Type} (f : α → Option β) (g : α → β)
    (l : List α) (h : ∀ x ∈ l, f x = some (g x)) :
    mapStrict f l = some (l.map g) := by
  induction l with
  | nil => rfl
  | cons x xs ih =>
    have hx := h x (List.mem_cons_self x xs)
    have hxs := ih (fun a ha => h a (List.mem_cons_of_mem x ha))
    unfold mapStrict
    rw [hx, hxs]
    rfl

theorem mapStrict_eq_some_filterMap {α β : Type} (f : α → Option β)
    (l : List α) (h : ∀ x ∈ l, ∃ y, f x = some y) :
    mapStrict f l = some (l.filterMap f) := by
  induction l with
  | nil => rfl
  | cons x xs ih =>
    obtain ⟨y, hy⟩ := h x (List.mem_cons_self x xs)
    have hxs := ih (fun a ha => h a (List.mem_cons_of_mem x ha))
    unfold mapStrict
    rw [hy, hxs, List.filterMap_cons, hy]

/-- The rule engine with strict year conversion. -/
def compute_needs_review_strict (r : Record) : Option Bool :=
  match mapStrict (fun t => mapStrict toNatDigits (findYearTokens t))
      (getOr r.time_mentions) with
  | none => none
  | some yearss =>
    some (
      let normalized_sources := normalizedSources (getOr r.sources_mentions)
      let urls := getOr r.urls
      let datasets := getOr r.dataset_candidates
      let has_future_year :=
        yearss.any (fun ys => ys.any (fun y => MAX_VALID_YEAR < y))
      let has_suspicious_domain := urls.foldl
        (fun fl u => if url_suspicious u then true else fl) false
      let c1 := if normalized_sources.isEmpty then true else false
      let c2 := if urls.isEmpty && datasets.isEmpty then true else c1
      let c3 := if has_future_year then true else c2
      let c4 := if has_suspicious_domain then true else c3
      c4)

/-- The extractor with strict year conversion. -/
def ai_extract_metadata_strict (text : List Char) : Option AiMeta :=
  if text.isEmpty then
    some { sources_ai := [], years_ai := [],
           has_downloadable_data_ai := false, notes_ai := "empty text".toList }
  else
    match mapStrict toNatDigits (findYearTokens (pyLower text)) with
    | none => none
    | some year_candidates =>
      some { sources_ai := sourcesFound (pyLower text),
             years_ai := sortedDedup year_candidates,
             has_downloadable_data_ai :=
               download_keywords.any (fun kw => containsSub kw (pyLower text)),
             notes_ai :=
               "rule-based extraction; replace with LLM/NER in the future".toList }

theorem tokens_parse (t : List Char) :
    ∀ tok ∈ findYearTokens t, ∃ y, toNatDigits tok = some y :=
  fun _ htok => yearToken_parses (List.of_mem_filter htok)

theorem any_years_eq (toks : List (List Char))
    (h : ∀ tok ∈ toks, ∃ y, toNatDigits tok = some y) :
    ((toks.filterMap toNatDigits).any (fun y => MAX_VALID_YEAR < y)) =
      toks.any token_future := by
  induction toks with
  | nil => rfl
  | cons t ts ih =>
    obtain ⟨y, hy⟩ := h t (List.mem_cons_self t ts)
    rw [List.filterMap_cons, hy, List.any_cons, List.any_cons,
      ih (fun a ha => h a (List.mem_cons_of_mem t ha))]
    have : token_future t = decide (MAX_VALID_YEAR < y) := by
      unfold token_future
      rw [hy]
    rw [this]

/-- C6: with every year conversion made strict, the rule engine and the
extractor still return a value, equal to the plain one, on every input:
no exception can propagate, absent fields default to empty containers,
and every matched year token converts. -/
theorem no_exception_strict (r : Record) (text : List Char) :
    compute_needs_review_strict r = some (compute_needs_review_for_record r) ∧
    ai_extract_metadata_strict text = some (ai_extract_metadata text) := by
  constructor
  · unfold compute_needs_review_strict
    rw [mapStrict_eq_map _ (fun t => (findYearTokens t).filterMap toNatDigits) _
      (fun t _ => mapStrict_eq_some_filterMap _ _ (tokens_parse t))]
    dsimp only
    congr 1
    rw [compute_eq_or]
    rw [foldl_flag]
    have hmap : ∀ ts : List (List Char), (ts.map
        (fun t => (findYearTokens t).filterMap toNatDigits)).any
        (fun ys => ys.any (fun y => MAX_VALID_YEAR < y)) =
        ts.any (fun t => (findYearTokens t).any token_future) := by
      intro ts
      induction ts with
      | nil => rfl
      | cons t ts2 ih =>
        rw [List.map_cons, List.any_cons, List.any_cons, ih,
          any_years_eq _ (tokens_parse t)]
    rw [hmap, Bool.false_or]
    cases h1 : (normalizedSources (getOr r.sources_mentions)).isEmpty <;>
      cases h2 : ((getOr r.urls).isEmpty && (getOr r.dataset_candidates).isEmpty) <;>
      cases h3 : (getOr r.time_mentions).any
        (fun t => (findYearTokens t).any token_future) <;>
      cases h4 : (getOr r.urls).any url_suspicious <;>
      rfl
  · unfold ai_extract_metadata_strict ai_extract_metadata
    by_cases ht : text.isEmpty = true
    · rw [if_pos ht, if_pos ht]
    · rw [if_neg ht, if_neg ht,
        mapStrict_eq_some_filterMap _ _ (tokens_parse (pyLower text))]

/-! ### The empty-text pipeline (C7) -/

/-- C7: empty text extracts to empty sources and years with the
downloadable flag false, and the record built from empty text satisfies
R1 and R2, so the rule engine flags it for review. -/
theorem empty_text_flags_record :
    ai_extract_metadata [] =
      { sources_ai := [], years_ai := [],
        has_downloadable_data_ai := false, notes_ai := "empty text".toList } ∧
    R1 (buildRecord []) ∧ R2 (buildRecord []) ∧
    compute_needs_review_for_record (buildRecord []) = true := by
  refine ⟨by decide, ?_, ⟨rfl, rfl⟩, by decide⟩
  intro x hx
  have hnil : getOr (buildRecord []).sources_mentions = [] := rfl
  rw [hnil] at hx
  exact absurd hx (List.not_mem_nil x)

/-! ### The CSV year field (C9) -/

/-- C9 counterexample: for the text "1999 and 2099" the CSV `years_ai`
field is "1999" (the out-of-range 2099 is clipped), not the semicolon-join
of the extractor's full year set "1999; 2099". -/
theorem csv_years_clip_cex :
    csv_row_years_ai "1999 and 2099".toList = "1999".toList ∧
    claimed_years_row "1999 and 2099".toList = "1999; 2099".toList ∧
    csv_row_years_ai "1999 and 2099".toList ≠
      claimed_years_row "1999 and 2099".toList := by
  decide

/-- C9 amended: the CSV `years_ai` field is the semicolon-joined sorted
set of the 19dd/20dd year tokens found anywhere in the text RESTRICTED to
the valid range 1990-2025. -/
theorem csv_years_row_amended (text : List Char) :
    csv_years_clipped text =
      (sortedDedup ((findYearTokens text).filterMap toNatDigits)).filter
        (fun y => MIN_VALID_YEAR ≤ y && y ≤ MAX_VALID_YEAR) ∧
    csv_row_years_ai text =
      List.intercalate "; ".toList
        (((sortedDedup ((findYearTokens text).filterMap toNatDigits)).filter
          (fun y => MIN_VALID_YEAR ≤ y && y ≤ MAX_VALID_YEAR)).map
          (fun y => Nat.toDigits 10 y)) := by
  have h : csv_years_clipped text =
      (sortedDedup ((findYearTokens text).filterMap toNatDigits)).filter
        (fun y => MIN_VALID_YEAR ≤ y && y ≤ MAX_VALID_YEAR) := by
    unfold csv_years_clipped ai_extract_metadata
    by_cases ht : text.isEmpty = true
    · rw [if_pos ht]
      have htxt : text = [] := List.isEmpty_iff.mp ht
      subst htxt
      rfl
    · rw [if_neg ht]
      dsimp only
      rw [findYearTokens_lower]
  refine ⟨h, ?_⟩
  rw [csv_row_years_ai, h]

theorem summarize_years_counts_witness :
    ((MIN_VALID_YEAR ≤ 1999 ∧ 1999 ≤ MAX_VALID_YEAR) ∧
      (summarize_years [recSampleB]).count 1999 =
        (allYearEntries [recSampleB]).count 1999) ∧
    ((¬(MIN_VALID_YEAR ≤ 2099 ∧ 2099 ≤ MAX_VALID_YEAR)) ∧
      (summarize_years [recSampleB]).count 2099 = 0) ∧
    (R3 recSampleB ∧ compute_needs_review_for_record recSampleB = true) := by
  have hR3 : R3 recSampleB :=
    ⟨"forecast for 2099".toList, by decide, "2099".toList, by decide, 2099,
      by decide, by decide⟩
  exact ⟨⟨by decide, (summarize_years_counts [recSampleB] 1999).1 (by decide)⟩,
    ⟨by decide, (summarize_years_counts [recSampleB] 2099).2.1 (by decide)⟩,
    hR3, (summarize_years_counts [recSampleB] 2099).2.2 recSampleB hR3⟩

end MetadataChecker
